import Mathlib

/-!
# Verification of the drino timetable-preprocessing core

A shallow embedding of `RaptorAlgorithm::preprocess`
(src/routing/src/raptor/preprocessing.rs) and of the orchestration in
`TransferPatternsAlgorithm::preprocess` (src/routing/src/tp/init.rs),
together with theorems settling the specification claims about them.

Identifiers (`StopId`, `TripId`, `LineId`, `SeqNum`) are opaque `u32`
values in the source; they are embedded as `Nat`.  Instants and
durations are milliseconds, embedded as `Int`.
-/

namespace Drino

/-- A row of the `line_progressions` table
(columns `line_id, stop_id, sequence_number`), as consumed by
`RaptorAlgorithm::preprocess`. -/
structure LPRow where
  line_id : Nat
  stop_id : Nat
  sequence_number : Nat
deriving DecidableEq, Repr

/-- A row of the `expanded_lines` table after the
`select(["line_id", "stop_id", "stop_sequence", "trip_id", "arrival_time",
"departure_time"])` in `RaptorAlgorithm::preprocess`. -/
structure ELRow where
  line_id : Nat
  stop_id : Nat
  stop_sequence : Nat
  trip_id : Nat
  arrival_time : Int
  departure_time : Int
deriving DecidableEq, Repr

/-- The `stops_vec` of `RaptorAlgorithm::preprocess`: the `stop_id` column is
collected and nulls are dropped (`filter_map(|x| x.map(StopId))`).
No deduplication is performed by the code. -/
def stopsVec (ids : List (Option Nat)) : List Nat := ids.filterMap id

/-- One step of the fold that builds `stops_by_line`:
`stops_by_line.entry(line_id).or_insert(vec![]).push(stop_id)`.
The `HashMap<LineId, Vec<StopId>>` is embedded as a total function that
returns `[]` for absent keys (the `or_insert(vec![])` default). -/
def sblStep (m : Nat → List Nat) (r : LPRow) : Nat → List Nat :=
  fun L => if L = r.line_id then m L ++ [r.stop_id] else m L

/-- The map `stops_by_line`, built by folding over the `line_progressions` rows in
row order (the code performs no sort before this loop). -/
def stopsByLine (rows : List LPRow) : Nat → List Nat :=
  rows.foldl sblStep (fun _ => [])

/-- One step of the fold that builds `lines_by_stops`:
`lines_by_stops.entry(stop_id).or_insert(HashSet::new()).insert((line_id, seq_num))`.
The `HashSet` is embedded as a duplicate-free list: inserting a present
element is a no-op. -/
def lbsStep (m : Nat → List (Nat × Nat)) (r : LPRow) : Nat → List (Nat × Nat) :=
  fun s => if s = r.stop_id then
      (if (r.line_id, r.sequence_number) ∈ m s then m s
       else m s ++ [(r.line_id, r.sequence_number)])
    else m s

/-- The map `lines_by_stops`, membership view (absent keys behave as the empty set). -/
def linesByStops (rows : List LPRow) : Nat → List (Nat × Nat) :=
  rows.foldl lbsStep (fun _ => [])

/-- The key set of the `lines_by_stops` `HashMap`: a key exists exactly when
some processed row had that `stop_id` (that is when `entry(stop_id)` ran).
`lines_by_stops.len()` in the code is the length of this list. -/
def linesByStopsKeys (rows : List LPRow) : List Nat :=
  rows.foldl (fun ks r => if r.stop_id ∈ ks then ks else ks ++ [r.stop_id]) []

/-- The three-column ascending sort key used by
`sorted_lines = lines.sort(["line_id", "trip_id", "stop_sequence"], ...)`. -/
def elKeyLe (a b : ELRow) : Prop :=
  a.line_id < b.line_id ∨ (a.line_id = b.line_id ∧
    (a.trip_id < b.trip_id ∨ (a.trip_id = b.trip_id ∧ a.stop_sequence ≤ b.stop_sequence)))

instance : DecidableRel elKeyLe := fun a b => by unfold elKeyLe; infer_instance

instance : IsTotal ELRow elKeyLe := by
  constructor
  intro a b
  unfold elKeyLe
  omega

instance : IsTrans ELRow elKeyLe := by
  constructor
  intro a b c hab hbc
  unfold elKeyLe at *
  omega

/-- The sorted frame `sorted_lines`.  The code's sort has
`maintain_order(false)`, but on rows with pairwise-distinct
`(line_id, trip_id, stop_sequence)` keys every correct sort yields the same
list, so a concrete insertion sort embeds it exactly under that hypothesis. -/
def sortEL (rows : List ELRow) : List ELRow := List.insertionSort elKeyLe rows

/-- One `HashMap::insert` into `arrivals`/`departures`, keyed by
`(trip_id, stop_id)`: a later insert overwrites an earlier one. -/
def taStep (v : ELRow → Int) (m : Nat × Nat → Option Int) (r : ELRow) :
    Nat × Nat → Option Int :=
  fun k => if k = (r.trip_id, r.stop_id) then some (v r) else m k

/-- The `arrivals` map: fold the insert over the sorted rows. -/
def arrivals (rows : List ELRow) : Nat × Nat → Option Int :=
  (sortEL rows).foldl (taStep (fun r => r.arrival_time)) (fun _ => none)

/-- The `departures` map: fold the insert over the sorted rows. -/
def departures (rows : List ELRow) : Nat × Nat → Option Int :=
  (sortEL rows).foldl (taStep (fun r => r.departure_time)) (fun _ => none)

/-- Comparison by `departure_time` only: the single-column sort key of
`lines.sort(["departure_time"], maintain_order(false))`. -/
def depLe (a b : ELRow) : Prop := a.departure_time ≤ b.departure_time

instance : DecidableRel depLe := fun a b => by unfold depLe; infer_instance

/-- Exact semantics of the unstable single-column sort that feeds the
`group_by` building `trips_by_line_and_stop`: the result is some
permutation of the input that is non-decreasing in `departure_time`;
the relative order of ties is left open by `maintain_order(false)`. -/
def DepSortedPerm (l l' : List ELRow) : Prop :=
  l'.Perm l ∧ l'.Sorted depLe

/-- The aggregation list for key `(L, s)` in `trips_by_line_and_stop`:
polars `group_by(line_id, stop_id).agg(trip_id, departure_time)` keeps,
for each group, its rows in the order of the (sorted) frame `l'`. -/
def tripsByLineAndStop (l' : List ELRow) (L s : Nat) : List (Int × Nat) :=
  (l'.filter (fun r => r.line_id = L ∧ r.stop_id = s)).map
    (fun r => (r.departure_time, r.trip_id))

/-- The spec's ordering for `trips_by_line_and_stop` entries: ascending by
departure time, ties broken by ascending `TripId`. -/
def SortedByDepThenTrip (xs : List (Int × Nat)) : Prop :=
  xs.Pairwise (fun a b => a.1 < b.1 ∨ (a.1 = b.1 ∧ a.2 ≤ b.2))

instance : DecidablePred SortedByDepThenTrip := fun xs => by
  unfold SortedByDepThenTrip; infer_instance

/-- The debug-build monotonicity check of `RaptorAlgorithm::preprocess`
exactly as the code performs it: it takes `first()` once, then compares
every element of `iter().skip(1)` against that same first element
(`last_departure_time` is never rebound inside the loop). -/
def assertCheck (deps : List (Int × Nat)) : Bool :=
  if deps.length ≥ 2 then
    match deps with
    | [] => true
    | (d0, _) :: rest => rest.all (fun p => decide (d0 ≤ p.1))
  else true

/-! ## Transfer Patterns orchestration (src/routing/src/tp/init.rs) -/

/-- Constant `const CHUNK_SIZE: u64 = 5;` from src/routing/src/tp/init.rs. -/
def CHUNK_SIZE : Nat := 5

/-- Rayon's `.chunks(CHUNK_SIZE)` over the stop list with `CHUNK_SIZE = 5`:
consecutive chunks of five, the last chunk possibly shorter. -/
def chunks5 {α : Type} : List α → List (List α)
  | [] => []
  | [a] => [[a]]
  | [a, b] => [[a, b]]
  | [a, b, c] => [[a, b, c]]
  | [a, b, c, d] => [[a, b, c, d]]
  | a :: b :: c :: d :: e :: rest => [a, b, c, d, e] :: chunks5 rest

/-- The `Range` argument of `query_range_all`: an earliest-departure
instant, an origin stop and a duration, all in milliseconds. -/
structure QueryRange where
  earliest_departure : Int
  start : Nat
  range : Int
deriving DecidableEq, Repr

/-- One week, `Duration::weeks(1)`, in milliseconds. -/
def weekMs : Int := 7 * 24 * 60 * 60 * 1000

/-- The query built for one stop:
`Range { earliest_departure: DateTime::from_timestamp_millis(0),
start: *stop, range: Duration::weeks(1) }`. -/
def mkRangeQuery (s : Nat) : QueryRange :=
  { earliest_departure := 0, start := s, range := weekMs }

/-- All range queries issued by `TransferPatternsAlgorithm::preprocess`,
chunk by chunk and stop by stop within each chunk. -/
def tpQueries (stops : List Nat) : List QueryRange :=
  ((chunks5 stops).map (fun c => c.map mkRangeQuery)).flatten

/-- The `Ok`-projection used by the
`filter_map(|result| match result { Ok(res) => Some(res), Err(_) => None })`
in the per-chunk pipeline. -/
def okToOption {σ : Type} : Except Unit σ → Option σ
  | .ok v => some v
  | .error _ => none

/-- The successful results of one chunk, in stop order: map the range
query over the chunk's stops and drop the failures. -/
def chunkResults {σ : Type} (q : Nat → Except Unit σ) (chunk : List Nat) : List σ :=
  (chunk.map q).filterMap okToOption

/-- Modelled from the spec: `TransferPatterns::add_multiple`
(src/routing/src/tp/transfer_patterns.rs is not among the sources).
Per §4.5 it inserts the patterns derived from a batch of range-query
outputs into the aggregator's per-origin pattern sets, idempotently;
`extract` is the pattern-extraction function, `π` the type of keyed
patterns, and the aggregate is the set of all patterns inserted so far. -/
def addMultiple {σ π : Type} [DecidableEq π] (extract : σ → List π)
    (agg : Finset π) (batch : List σ) : Finset π :=
  agg ∪ (batch.flatMap extract).toFinset

/-- The orchestrator's fold over an explicit chunk list: each chunk's
successful results are inserted into the aggregator with `add_multiple`
(the per-chunk mutex serializes these insertions; any serialization order
folds the same insertions, see `tp_order_independent`). -/
def runChunks {σ π : Type} [DecidableEq π] (q : Nat → Except Unit σ)
    (extract : σ → List π) (cs : List (List Nat)) : Finset π :=
  cs.foldl (fun agg c => addMultiple extract agg (chunkResults q c)) ∅

/-- The whole orchestration of `TransferPatternsAlgorithm::preprocess`:
chunk the stop list with `CHUNK_SIZE = 5`, then fold the per-chunk
insertions.  Query failures are consumed before the fold, so the result
is total in `q`. -/
def tpRun {σ π : Type} [DecidableEq π] (q : Nat → Except Unit σ)
    (extract : σ → List π) (stops : List Nat) : Finset π :=
  runChunks q extract (chunks5 stops)

/-- The contribution of a single stop to the final aggregate: the patterns
of its query result if it succeeded, nothing if it failed. -/
def stopContrib {σ π : Type} [DecidableEq π] (q : Nat → Except Unit σ)
    (extract : σ → List π) (s : Nat) : Finset π :=
  ((okToOption (q s)).toList.flatMap extract).toFinset

/-! ## Helper lemmas on the `line_progressions` fold -/

theorem foldl_sblStep (rows : List LPRow) :
    ∀ (m : Nat → List Nat) (L : Nat),
      rows.foldl sblStep m L
        = m L ++ (rows.filter (fun r => r.line_id = L)).map (fun r => r.stop_id) := by
  induction rows with
  | nil => intro m L; simp
  | cons r t ih =>
    intro m L
    rw [List.foldl_cons, ih]
    by_cases h : r.line_id = L
    · simp [sblStep, h, List.filter_cons]
    · have h' : ¬L = r.line_id := fun hL => h hL.symm
      simp [sblStep, h, h', List.filter_cons]

/-- The list `stops_by_line[L]` is exactly the `stop_id`s of the rows of line `L`,
in row-processing order (the code sorts nothing before this fold). -/
theorem stopsByLine_eq (rows : List LPRow) (L : Nat) :
    stopsByLine rows L = (rows.filter (fun r => r.line_id = L)).map (fun r => r.stop_id) := by
  unfold stopsByLine
  rw [foldl_sblStep]
  simp

theorem mem_lbsStep (m : Nat → List (Nat × Nat)) (r : LPRow) (s : Nat) (p : Nat × Nat) :
    p ∈ lbsStep m r s
      ↔ p ∈ m s ∨ (r.stop_id = s ∧ p = (r.line_id, r.sequence_number)) := by
  unfold lbsStep
  split_ifs with hs hp
  · subst hs
    constructor
    · exact Or.inl
    · rintro (h | ⟨-, rfl⟩)
      · exact h
      · exact hp
  · subst hs
    simp only [List.mem_append, List.mem_singleton]
    constructor
    · rintro (h | h)
      · exact Or.inl h
      · exact Or.inr ⟨trivial, h⟩
    · rintro (h | ⟨-, h⟩)
      · exact Or.inl h
      · exact Or.inr h
  · constructor
    · exact Or.inl
    · rintro (h | ⟨he, -⟩)
      · exact h
      · exact absurd he.symm hs

theorem foldl_lbsStep (rows : List LPRow) :
    ∀ (m : Nat → List (Nat × Nat)) (s : Nat) (p : Nat × Nat),
      p ∈ rows.foldl lbsStep m s
        ↔ p ∈ m s ∨ ∃ r ∈ rows, r.stop_id = s ∧ p = (r.line_id, r.sequence_number) := by
  induction rows with
  | nil => intro m s p; simp
  | cons r t ih =>
    intro m s p
    rw [List.foldl_cons, ih, mem_lbsStep]
    simp only [List.mem_cons]
    constructor
    · rintro ((h | h) | ⟨x, hx, hxs, hxp⟩)
      · exact Or.inl h
      · exact Or.inr ⟨r, Or.inl rfl, h⟩
      · exact Or.inr ⟨x, Or.inr hx, hxs, hxp⟩
    · rintro (h | ⟨x, (rfl | hx), hxs, hxp⟩)
      · exact Or.inl (Or.inl h)
      · exact Or.inl (Or.inr ⟨hxs, hxp⟩)
      · exact Or.inr ⟨x, hx, hxs, hxp⟩

/-- Membership in `lines_by_stops[s]`: exactly the `(line_id, seq_num)`
pairs of the rows whose `stop_id` is `s`. -/
theorem mem_linesByStops (rows : List LPRow) (s : Nat) (p : Nat × Nat) :
    p ∈ linesByStops rows s
      ↔ ∃ r ∈ rows, r.stop_id = s ∧ p = (r.line_id, r.sequence_number) := by
  unfold linesByStops
  rw [foldl_lbsStep]
  simp

/-- The ascending `(line_id, sequence_number)` row order that the spec's
build step 2 asks for (`sort rows by (line_id, sequence_number) first`). -/
def lpLe (a b : LPRow) : Prop :=
  a.line_id < b.line_id ∨ (a.line_id = b.line_id ∧ a.sequence_number ≤ b.sequence_number)

instance : DecidableRel lpLe := fun a b => by unfold lpLe; infer_instance

/-- Claim C3 (amended): `RaptorAlgorithm::preprocess` appends `stop_id` values to
`stops_by_line[L]` in plain row order — it performs no sort of
`line_progressions`.  Consequently the stored list reflects
`sequence_number` ascending exactly when the rows already arrive sorted by
`(line_id, sequence_number)`: under that hypothesis, for every line `L`
the list is the line's stops and their sequence numbers ascend. -/
theorem stopsByLine_seq_ascending (rows : List LPRow) (h : rows.Pairwise lpLe) (L : Nat) :
    stopsByLine rows L = (rows.filter (fun r => r.line_id = L)).map (fun r => r.stop_id)
      ∧ ((rows.filter (fun r => r.line_id = L)).map
          (fun r => r.sequence_number)).Sorted (· ≤ ·) := by
  refine ⟨stopsByLine_eq rows L, ?_⟩
  have hf : (rows.filter (fun r => r.line_id = L)).Pairwise lpLe := h.filter _
  rw [List.Sorted, List.pairwise_map]
  refine hf.imp_of_mem ?_
  intro a b ha hb hab
  have ha' : a.line_id = L := by simpa using List.of_mem_filter ha
  have hb' : b.line_id = L := by simpa using List.of_mem_filter hb
  rcases hab with h1 | ⟨-, h2⟩
  · exact absurd (ha'.trans hb'.symm) (Nat.ne_of_lt h1)
  · exact h2

/-- Claim C3 counterexample: on a `line_progressions` input whose rows are not
sorted by `(line_id, sequence_number)` — here the row with sequence
number 1 precedes the row with sequence number 0 — the code stores
`stops_by_line[0] = [7, 8]`, whose sequence numbers run `[1, 0]`: the
stored list does not reflect `sequence_number` ascending, refuting the
claim that the rows are processed as if sorted. -/
theorem stopsByLine_seq_ascending_cex :
    stopsByLine [⟨0, 7, 1⟩, ⟨0, 8, 0⟩] 0 = [7, 8]
      ∧ (([(⟨0, 7, 1⟩ : LPRow), ⟨0, 8, 0⟩].filter (fun r => r.line_id = 0)).map
          (fun r => r.sequence_number)) = [1, 0]
      ∧ ¬ ([1, 0] : List Nat).Sorted (· ≤ ·) := by
  refine ⟨by decide, by decide, ?_⟩
  intro h
  have := List.rel_of_pairwise_cons h (List.mem_singleton.mpr rfl)
  omega

/-- Witness for `stopsByLine_seq_ascending` at a concrete sorted input. -/
theorem stopsByLine_seq_ascending_witness :
    ([(⟨0, 8, 0⟩ : LPRow), ⟨0, 7, 1⟩, ⟨1, 3, 0⟩].Pairwise lpLe)
      ∧ (stopsByLine [⟨0, 8, 0⟩, ⟨0, 7, 1⟩, ⟨1, 3, 0⟩] 0
            = ([(⟨0, 8, 0⟩ : LPRow), ⟨0, 7, 1⟩, ⟨1, 3, 0⟩].filter
                (fun r => r.line_id = 0)).map (fun r => r.stop_id)
          ∧ (([(⟨0, 8, 0⟩ : LPRow), ⟨0, 7, 1⟩, ⟨1, 3, 0⟩].filter
              (fun r => r.line_id = 0)).map (fun r => r.sequence_number)).Sorted (· ≤ ·)) :=
  ⟨by decide, stopsByLine_seq_ascending _ (by decide) 0⟩

theorem getElem?_some_mem {α : Type} {l : List α} {k : Nat} {a : α}
    (h : l[k]? = some a) : a ∈ l := by
  obtain ⟨hk, he⟩ := List.getElem?_eq_some.mp h
  exact he ▸ List.getElem_mem hk

/-- If the sequence numbers of a row list are exactly `0, 1, 2, …` in row
order, then the row at index `i` carries sequence number `i`. -/
theorem seq_eq_index_of_range {fl : List LPRow}
    (hH : fl.map (fun r => r.sequence_number) = List.range fl.length)
    {i : Nat} {r : LPRow} (hi : fl[i]? = some r) : r.sequence_number = i := by
  have h1 : (fl.map (fun r => r.sequence_number))[i]? = some r.sequence_number := by
    rw [List.getElem?_map, hi]; rfl
  have hk : i < fl.length := (List.getElem?_eq_some.mp hi).1
  rw [hH, List.getElem?_eq_getElem (by simpa using hk)] at h1
  simpa using h1.symm

/-- Claim C2 (amended): the cross-index invariant
`stops_by_line[L][k] = s ↔ (L, k) ∈ lines_by_stops[s]` holds provided the
`line_progressions` rows arrive with each line's sequence numbers equal to
`0, 1, 2, …` in row order (equivalently: rows sorted by
`(line_id, sequence_number)` with the normalized 0-based ranks of §4.1).
The code itself neither sorts nor normalizes, so the hypothesis is about
the input; without it the invariant fails, see
`lines_by_stops_cross_invariant_cex`. -/
theorem lines_by_stops_cross_invariant (rows : List LPRow)
    (H : ∀ L ∈ rows.map (fun r => r.line_id),
      (rows.filter (fun r => r.line_id = L)).map (fun r => r.sequence_number)
        = List.range ((rows.filter (fun r => r.line_id = L)).length)) :
    ∀ L k s, (stopsByLine rows L)[k]? = some s ↔ (L, k) ∈ linesByStops rows s := by
  intro L k s
  rw [stopsByLine_eq, mem_linesByStops]
  by_cases hL : L ∈ rows.map (fun r => r.line_id)
  · have hH := H L hL
    constructor
    · intro hk
      rw [List.getElem?_map] at hk
      cases hfk : (rows.filter (fun r => r.line_id = L))[k]? with
      | none => rw [hfk] at hk; simp at hk
      | some r =>
        rw [hfk] at hk
        simp only [Option.map_some'] at hk
        have hstop : r.stop_id = s := Option.some_inj.mp hk
        have hmem : r ∈ rows.filter (fun r => r.line_id = L) := getElem?_some_mem hfk
        have hline : r.line_id = L := by simpa using List.of_mem_filter hmem
        have hseq : r.sequence_number = k := seq_eq_index_of_range hH hfk
        exact ⟨r, List.mem_of_mem_filter hmem, hstop, by rw [hline, hseq]⟩
    · rintro ⟨r, hr, hstop, hpair⟩
      have hline : L = r.line_id := congrArg Prod.fst hpair
      have hkseq : k = r.sequence_number := congrArg Prod.snd hpair
      have hmem : r ∈ rows.filter (fun r => r.line_id = L) :=
        List.mem_filter_of_mem hr (by simp [hline.symm])
      obtain ⟨i, hi⟩ := List.get_of_mem hmem
      have hi' : (rows.filter (fun r => r.line_id = L))[(i : Nat)]? = some r := by
        rw [List.getElem?_eq_getElem i.isLt]
        simpa using hi
      have hseq : r.sequence_number = (i : Nat) := seq_eq_index_of_range hH hi'
      rw [List.getElem?_map, hkseq, hseq, hi']
      simp [hstop]
  · constructor
    · intro hk
      exfalso
      have hnil : rows.filter (fun r => r.line_id = L) = [] := by
        rw [List.filter_eq_nil_iff]
        intro a ha hline
        exact hL (List.mem_map.mpr ⟨a, ha, by simpa using hline⟩)
      rw [hnil] at hk
      simp at hk
    · rintro ⟨r, hr, -, hpair⟩
      exact absurd (List.mem_map.mpr ⟨r, hr, (congrArg Prod.fst hpair).symm⟩) hL

/-- Claim C2 counterexample: with the two rows of line 0 arriving out of
sequence-number order, `stops_by_line[0] = [7, 8]` while
`lines_by_stops[7] = {(0, 1)}`: the pair `(0, 0)` demanded by the claim
for index 0 is not present, and conversely `(0, 1) ∈ lines_by_stops[7]`
although `stops_by_line[0][1] = 8 ≠ 7`. -/
theorem lines_by_stops_cross_invariant_cex :
    (stopsByLine [⟨0, 7, 1⟩, ⟨0, 8, 0⟩] 0)[0]? = some 7
      ∧ ¬ ((0, 0) ∈ linesByStops [⟨0, 7, 1⟩, ⟨0, 8, 0⟩] 7)
      ∧ ((0, 1) ∈ linesByStops [⟨0, 7, 1⟩, ⟨0, 8, 0⟩] 7)
      ∧ (stopsByLine [⟨0, 7, 1⟩, ⟨0, 8, 0⟩] 0)[1]? = some 8 := by
  refine ⟨?_, by decide, by decide, ?_⟩ <;> decide

/-- Witness for `lines_by_stops_cross_invariant` at a concrete well-formed
input. -/
theorem lines_by_stops_cross_invariant_witness :
    (∀ L ∈ [(⟨0, 8, 0⟩ : LPRow), ⟨0, 7, 1⟩, ⟨1, 3, 0⟩].map (fun r => r.line_id),
      ([(⟨0, 8, 0⟩ : LPRow), ⟨0, 7, 1⟩, ⟨1, 3, 0⟩].filter
          (fun r => r.line_id = L)).map (fun r => r.sequence_number)
        = List.range (([(⟨0, 8, 0⟩ : LPRow), ⟨0, 7, 1⟩, ⟨1, 3, 0⟩].filter
            (fun r => r.line_id = L)).length))
      ∧ ((stopsByLine [⟨0, 8, 0⟩, ⟨0, 7, 1⟩, ⟨1, 3, 0⟩] 0)[1]? = some 7
          ↔ (0, 1) ∈ linesByStops [⟨0, 8, 0⟩, ⟨0, 7, 1⟩, ⟨1, 3, 0⟩] 7) :=
  ⟨by decide, lines_by_stops_cross_invariant _ (by decide) 0 1 7⟩

/-! ## The `stops` vector (C9) and the `lines_by_stops` key set (C4) -/

/-- Claim C9 (amended): `stops_vec` is the `stop_id` column verbatim with nulls
dropped — the code performs no deduplication — so it is duplicate-free
whenever the input column is duplicate-free.  On a column that does
contain a duplicate the output keeps it, see `stopsVec_dedup_cex`. -/
theorem stopsVec_nodup_of_input_nodup (ids : List (Option Nat)) (h : ids.Nodup) :
    (stopsVec ids).Nodup := by
  unfold stopsVec
  refine List.Nodup.filterMap ?_ h
  intro a a' b hb hb'
  exact hb.trans hb'.symm

/-- Claim C9 counterexample: a stops table whose `stop_id` column holds the value
0 twice yields `stops = [0, 0]`, which has a duplicate — the claim that
the result is deduplicated for every input fails. -/
theorem stopsVec_dedup_cex :
    stopsVec [some 0, some 0] = [0, 0] ∧ ¬ (stopsVec [some 0, some 0]).Nodup := by
  constructor
  · decide
  · intro h
    rw [show stopsVec [some 0, some 0] = [0, 0] from rfl] at h
    exact (List.nodup_cons.mp h).1 (List.mem_singleton.mpr rfl)

/-- Witness for `stopsVec_nodup_of_input_nodup`. -/
theorem stopsVec_nodup_of_input_nodup_witness :
    ([some 0, none, some 2] : List (Option Nat)).Nodup
      ∧ (stopsVec [some 0, none, some 2]).Nodup :=
  ⟨by decide, stopsVec_nodup_of_input_nodup _ (by decide)⟩

/-- Claim C4 (code bug): `lines_by_stops` acquires a key only when a
`line_progressions` row mentions that stop, so stops served by no line are
not keys at all.  With six stops and zero trips the map has zero keys
while `stops_vec` has six entries, and the code's own
`debug_assert!(stops_vec.len() == lines_by_stops.len())`
(src/routing/src/raptor/preprocessing.rs:50) evaluates to false. -/
theorem lines_by_stops_misses_unserved_stops :
    (stopsVec [some 0, some 1, some 2, some 3, some 4, some 5]).length = 6
      ∧ (linesByStopsKeys []).length = 0
      ∧ ((stopsVec [some 0, some 1, some 2, some 3, some 4, some 5]).length
          == (linesByStopsKeys []).length) = false
      ∧ ¬ (0 ∈ linesByStopsKeys []) := by
  refine ⟨rfl, rfl, rfl, ?_⟩
  intro h
  simp [linesByStopsKeys] at h

/-- Claim C5 (code bug): the debug assertion of `RaptorAlgorithm::preprocess`
never rebinds `last_departure_time`, so it compares every later element
against the *first* element instead of its predecessor.  On the list
`[(0, t0), (5, t1), (3, t2)]` the code's check passes even though the
departure times decrease from 5 to 3, so the check does not hold `exactly
when every element is at least its predecessor`. -/
theorem assertCheck_not_pairwise_monotone :
    assertCheck [(0, 0), (5, 1), (3, 2)] = true
      ∧ ¬ List.Chain' (fun a b => a ≤ b)
          (([((0 : Int), (0 : Nat)), (5, 1), (3, 2)]).map (fun p => p.1)) := by
  constructor
  · rfl
  · intro h
    simp only [List.map_cons, List.map_nil, List.chain'_cons] at h
    omega

/-! ## `trips_by_line_and_stop` ordering (C1) -/

/-- Claim C1 (amended): every list stored in `trips_by_line_and_stop[(L, s)]` is
sorted ascending by departure time; the code sorts on `departure_time`
alone with `maintain_order(false)`, so the relative order of trips with
identical departure times is unspecified — no `TripId` tie-break is
applied (see `tripsByLineAndStop_tiebreak_cex`). -/
theorem tripsByLineAndStop_sorted_by_departure (l l' : List ELRow)
    (h : DepSortedPerm l l') (L s : Nat) :
    (tripsByLineAndStop l' L s).Pairwise (fun a b => a.1 ≤ b.1) := by
  obtain ⟨-, hsorted⟩ := h
  unfold tripsByLineAndStop
  rw [List.pairwise_map]
  exact (hsorted.filter _).imp (fun hab => hab)

/-- Claim C1 counterexample: two trips (0 and 1) of line 0 departing stop 0 at
the identical instant 100.  The list `[⟨trip 1⟩, ⟨trip 0⟩]` is a valid
result of the code's unstable departure-time sort, and the stored entry
`[(100, 1), (100, 0)]` has its equal-departure trips in descending
`TripId` order, refuting the claimed ascending tie-break. -/
theorem tripsByLineAndStop_tiebreak_cex :
    DepSortedPerm [⟨0, 0, 0, 0, 0, 100⟩, ⟨0, 0, 1, 1, 0, 100⟩]
        [⟨0, 0, 1, 1, 0, 100⟩, ⟨0, 0, 0, 0, 0, 100⟩]
      ∧ tripsByLineAndStop [⟨0, 0, 1, 1, 0, 100⟩, ⟨0, 0, 0, 0, 0, 100⟩] 0 0
          = [(100, 1), (100, 0)]
      ∧ ¬ SortedByDepThenTrip [(100, 1), (100, 0)] :=
  ⟨⟨List.Perm.swap _ _ _, by decide⟩, by decide, by decide⟩

/-- Witness for `tripsByLineAndStop_sorted_by_departure`. -/
theorem tripsByLineAndStop_sorted_by_departure_witness :
    DepSortedPerm [⟨0, 0, 0, 0, 0, 100⟩, ⟨0, 0, 1, 1, 0, 200⟩]
        [⟨0, 0, 0, 0, 0, 100⟩, ⟨0, 0, 1, 1, 0, 200⟩]
      ∧ (tripsByLineAndStop [⟨0, 0, 0, 0, 0, 100⟩, ⟨0, 0, 1, 1, 0, 200⟩] 0 0).Pairwise
          (fun a b => a.1 ≤ b.1) :=
  ⟨⟨List.Perm.refl _, by decide⟩,
    tripsByLineAndStop_sorted_by_departure _ _ ⟨List.Perm.refl _, by decide⟩ 0 0⟩

/-! ## `arrivals` / `departures` overwrite semantics (C10) -/

/-- Looking a key up after folding `HashMap::insert` steps over a row list:
the stored value comes from the last row with that key, if any. -/
theorem foldl_taStep (v : ELRow → Int) :
    ∀ (l : List ELRow) (m : Nat × Nat → Option Int) (k : Nat × Nat),
      (l.foldl (taStep v) m) k
        = match (l.filter (fun r => (r.trip_id, r.stop_id) = k)).getLast? with
          | some r => some (v r)
          | none => m k := by
  intro l
  induction l with
  | nil => intro m k; simp
  | cons a t ih =>
    intro m k
    rw [List.foldl_cons, ih]
    by_cases hk : (a.trip_id, a.stop_id) = k
    · rw [List.filter_cons_of_pos (by simpa using hk)]
      cases hft : t.filter (fun r => (r.trip_id, r.stop_id) = k) with
      | nil =>
        simp only [List.getLast?_nil, List.getLast?_singleton]
        unfold taStep
        rw [if_pos hk.symm]
      | cons b bs =>
        rw [List.getLast?_cons_cons,
          List.getLast?_eq_getLast (b :: bs) (List.cons_ne_nil b bs)]
    · rw [List.filter_cons_of_neg (by simpa using hk)]
      cases hft : t.filter (fun r => (r.trip_id, r.stop_id) = k) with
      | nil =>
        simp only [List.getLast?_nil]
        unfold taStep
        rw [if_neg (fun he => hk he.symm)]
      | cons b bs =>
        rw [List.getLast?_eq_getLast (b :: bs) (List.cons_ne_nil b bs)]

/-- In a `Pairwise R` list, every member is the last element or relates to
it. -/
theorem pairwise_rel_getLast {α : Type} {R : α → α → Prop} :
    ∀ {l : List α}, l.Pairwise R → ∀ {a : α}, a ∈ l → ∀ (h : l ≠ []),
      a = l.getLast h ∨ R a (l.getLast h) := by
  intro l
  induction l with
  | nil => intro _ a ha; exact absurd ha (List.not_mem_nil a)
  | cons x t ih =>
    intro hp a ha h
    cases t with
    | nil =>
      rw [List.mem_singleton] at ha
      exact Or.inl (by rw [ha, List.getLast_singleton])
    | cons y u =>
      rw [List.getLast_cons (List.cons_ne_nil y u)]
      rcases List.mem_cons.mp ha with rfl | ha'
      · exact Or.inr (List.rel_of_pairwise_cons hp (List.getLast_mem (List.cons_ne_nil y u)))
      · exact ih hp.of_cons ha' (List.cons_ne_nil y u)

/-- The last row of the sorted frame carrying key `(t, s)` is the maximal
visit of that key, given one line per trip and distinct
`(trip_id, stop_sequence)` pairs. -/
theorem sortEL_filter_getLast (rows : List ELRow)
    (hline : ∀ a ∈ rows, ∀ b ∈ rows, a.trip_id = b.trip_id → a.line_id = b.line_id)
    (hkey : ∀ a ∈ rows, ∀ b ∈ rows, a.trip_id = b.trip_id →
      a.stop_sequence = b.stop_sequence → a = b)
    {r : ELRow} (hr : r ∈ rows) {t s : Nat} (ht : r.trip_id = t) (hs : r.stop_id = s)
    (hmax : ∀ b ∈ rows, b.trip_id = t → b.stop_id = s →
      b.stop_sequence ≤ r.stop_sequence) :
    ∃ hne : (sortEL rows).filter (fun x => (x.trip_id, x.stop_id) = (t, s)) ≠ [],
      ((sortEL rows).filter (fun x => (x.trip_id, x.stop_id) = (t, s))).getLast hne = r := by
  have hperm : List.Perm (sortEL rows) rows := List.perm_insertionSort elKeyLe rows
  have hrmem : r ∈ (sortEL rows).filter (fun x => (x.trip_id, x.stop_id) = (t, s)) :=
    List.mem_filter_of_mem (hperm.mem_iff.mpr hr) (by simp [ht, hs])
  refine ⟨List.ne_nil_of_mem hrmem, ?_⟩
  set fl := (sortEL rows).filter (fun x => (x.trip_id, x.stop_id) = (t, s)) with hfl
  have hne : fl ≠ [] := List.ne_nil_of_mem hrmem
  have hxmem : fl.getLast hne ∈ fl := List.getLast_mem hne
  have hxrows : fl.getLast hne ∈ rows :=
    hperm.mem_iff.mp (List.mem_of_mem_filter hxmem)
  have hxkey : (fl.getLast hne).trip_id = t ∧ (fl.getLast hne).stop_id = s := by
    have := List.of_mem_filter hxmem
    simp only [decide_eq_true_eq, Prod.mk.injEq] at this
    exact this
  have hsorted : (sortEL rows).Sorted elKeyLe := List.sorted_insertionSort elKeyLe rows
  have hfs : fl.Pairwise elKeyLe := hsorted.filter _
  rcases pairwise_rel_getLast hfs hrmem hne with he | hrel
  · exact he.symm
  · have hseq1 : (fl.getLast hne).stop_sequence ≤ r.stop_sequence :=
      hmax _ hxrows hxkey.1 hxkey.2
    have hlineeq : r.line_id = (fl.getLast hne).line_id :=
      hline _ hr _ hxrows (ht.trans hxkey.1.symm)
    have htripeq : r.trip_id = (fl.getLast hne).trip_id := ht.trans hxkey.1.symm
    have hseq2 : r.stop_sequence ≤ (fl.getLast hne).stop_sequence := by
      rcases hrel with h1 | ⟨-, h2 | ⟨-, h3⟩⟩
      · omega
      · omega
      · exact h3
    exact hkey _ hxrows _ hr htripeq.symm (by omega)

/-- Claim C10: `arrivals` and `departures` are keyed by `(TripId, StopId)`, so
after the `(line_id, trip_id, stop_sequence)`-sorted insertion scan every
`(trip, stop)` pair holds exactly one event — the one of the visit with
the greatest `stop_sequence`, later inserts having overwritten earlier
ones.  Hypotheses: every trip lies on a single line (as `expanded_lines`
annotates each trip's rows with its one line) and `(trip_id,
stop_sequence)` identifies a row; `r` is the maximal-sequence visit of
trip `t` at stop `s`. -/
theorem arrivals_departures_last_visit_wins (rows : List ELRow)
    (hline : ∀ a ∈ rows, ∀ b ∈ rows, a.trip_id = b.trip_id → a.line_id = b.line_id)
    (hkey : ∀ a ∈ rows, ∀ b ∈ rows, a.trip_id = b.trip_id →
      a.stop_sequence = b.stop_sequence → a = b)
    (r : ELRow) (hr : r ∈ rows) (t s : Nat) (ht : r.trip_id = t) (hs : r.stop_id = s)
    (hmax : ∀ b ∈ rows, b.trip_id = t → b.stop_id = s →
      b.stop_sequence ≤ r.stop_sequence) :
    arrivals rows (t, s) = some r.arrival_time
      ∧ departures rows (t, s) = some r.departure_time := by
  obtain ⟨hne, hlast⟩ := sortEL_filter_getLast rows hline hkey hr ht hs hmax
  constructor
  · unfold arrivals
    rw [foldl_taStep, List.getLast?_eq_getLast _ hne, hlast]
  · unfold departures
    rw [foldl_taStep, List.getLast?_eq_getLast _ hne, hlast]

/-- Witness for `arrivals_departures_last_visit_wins`: trip 0 visits stop
5 at sequence 0 and again at sequence 2; the stored event is the one of
the later visit (arrival 30, departure 31). -/
theorem arrivals_departures_last_visit_wins_witness :
    ((⟨0, 5, 2, 0, 30, 31⟩ : ELRow) ∈
        [(⟨0, 5, 0, 0, 10, 11⟩ : ELRow), ⟨0, 9, 1, 0, 20, 21⟩, ⟨0, 5, 2, 0, 30, 31⟩])
      ∧ (arrivals [⟨0, 5, 0, 0, 10, 11⟩, ⟨0, 9, 1, 0, 20, 21⟩, ⟨0, 5, 2, 0, 30, 31⟩] (0, 5)
            = some 30
          ∧ departures [⟨0, 5, 0, 0, 10, 11⟩, ⟨0, 9, 1, 0, 20, 21⟩, ⟨0, 5, 2, 0, 30, 31⟩] (0, 5)
            = some 31) :=
  ⟨by decide,
    arrivals_departures_last_visit_wins
      [⟨0, 5, 0, 0, 10, 11⟩, ⟨0, 9, 1, 0, 20, 21⟩, ⟨0, 5, 2, 0, 30, 31⟩]
      (by decide) (by decide) ⟨0, 5, 2, 0, 30, 31⟩ (by decide) 0 5 rfl rfl (by decide)⟩

/-! ## Chunking of the stop list (C6) -/

theorem chunks5_flatten {α : Type} : ∀ l : List α, (chunks5 l).flatten = l
  | [] => rfl
  | [_] => rfl
  | [_, _] => rfl
  | [_, _, _] => rfl
  | [_, _, _, _] => rfl
  | a :: b :: c :: d :: e :: rest => by
    simp only [chunks5, List.flatten_cons, chunks5_flatten rest]
    rfl

theorem chunks5_sizes {α : Type} :
    ∀ l : List α, ∀ c ∈ chunks5 l, c ≠ [] ∧ c.length ≤ 5
  | [] => by intro c hc; simp [chunks5] at hc
  | [a] => by intro c hc; simp only [chunks5, List.mem_singleton] at hc; simp [hc]
  | [a, b] => by intro c hc; simp only [chunks5, List.mem_singleton] at hc; simp [hc]
  | [a, b, c'] => by intro c hc; simp only [chunks5, List.mem_singleton] at hc; simp [hc]
  | [a, b, c', d] => by intro c hc; simp only [chunks5, List.mem_singleton] at hc; simp [hc]
  | a :: b :: c' :: d :: e :: rest => by
    intro c hc
    rcases List.mem_cons.mp hc with rfl | hc'
    · simp
    · exact chunks5_sizes rest c hc'

theorem chunks5_dropLast_full {α : Type} :
    ∀ l : List α, ∀ c ∈ (chunks5 l).dropLast, c.length = 5
  | [] => by intro c hc; simp [chunks5] at hc
  | [a] => by intro c hc; simp [chunks5] at hc
  | [a, b] => by intro c hc; simp [chunks5] at hc
  | [a, b, c'] => by intro c hc; simp [chunks5] at hc
  | [a, b, c', d] => by intro c hc; simp [chunks5] at hc
  | a :: b :: c' :: d :: e :: rest => by
    intro c hc
    rw [show chunks5 (a :: b :: c' :: d :: e :: rest)
          = [a, b, c', d, e] :: chunks5 rest from rfl] at hc
    cases hcr : chunks5 rest with
    | nil => rw [hcr] at hc; simp at hc
    | cons y ys =>
      rw [hcr, List.dropLast_cons₂, List.mem_cons] at hc
      rcases hc with rfl | hc'
      · rfl
      · exact chunks5_dropLast_full rest c (by rw [hcr]; exact hc')

theorem map_start_mkRangeQuery :
    ∀ l : List Nat, (l.map mkRangeQuery).map (fun q => q.start) = l
  | [] => rfl
  | a :: t => by simp [map_start_mkRangeQuery t, mkRangeQuery]

theorem flatten_map_start : ∀ ll : List (List Nat),
    ((ll.map (fun c => c.map mkRangeQuery)).flatten.map (fun q => q.start)) = ll.flatten
  | [] => rfl
  | c :: t => by
    simp only [List.map_cons, List.flatten_cons, List.map_append,
      flatten_map_start t, map_start_mkRangeQuery c]

/-- Claim C6: `TransferPatternsAlgorithm::preprocess` partitions the stop list
into chunks of `CHUNK_SIZE = 5` (every chunk nonempty and of size at most
5, all but the last exactly 5, and their concatenation the original
list), and for every stop it invokes the range-query driver with
`earliest_departure` = the instant at timestamp 0 ms and a range of
exactly one week (604800000 ms). -/
theorem tp_chunking_and_query_parameters (stops : List Nat) :
    (chunks5 stops).flatten = stops
      ∧ (∀ c ∈ chunks5 stops, c ≠ [] ∧ c.length ≤ CHUNK_SIZE)
      ∧ (∀ c ∈ (chunks5 stops).dropLast, c.length = CHUNK_SIZE)
      ∧ (tpQueries stops).map (fun q => q.start) = stops
      ∧ (∀ q ∈ tpQueries stops, q.earliest_departure = 0 ∧ q.range = 604800000)
      ∧ CHUNK_SIZE = 5 := by
  refine ⟨chunks5_flatten stops, chunks5_sizes stops, chunks5_dropLast_full stops,
    ?_, ?_, rfl⟩
  · unfold tpQueries
    exact (flatten_map_start (chunks5 stops)).trans (chunks5_flatten stops)
  · intro q hq
    unfold tpQueries at hq
    rw [List.mem_flatten] at hq
    obtain ⟨c, hc, hqc⟩ := hq
    rw [List.mem_map] at hc
    obtain ⟨c', -, rfl⟩ := hc
    rw [List.mem_map] at hqc
    obtain ⟨s, -, rfl⟩ := hqc
    exact ⟨rfl, rfl⟩

/-! ## Aggregation semantics (C7, C8) -/

theorem foldl_addMultiple {σ π : Type} [DecidableEq π] (q : Nat → Except Unit σ)
    (extract : σ → List π) :
    ∀ (cs : List (List Nat)) (A : Finset π),
      cs.foldl (fun agg c => addMultiple extract agg (chunkResults q c)) A
        = A ∪ (cs.flatMap (fun c => (chunkResults q c).flatMap extract)).toFinset
  | [], A => by simp
  | c :: t, A => by
    rw [List.foldl_cons, foldl_addMultiple q extract t]
    unfold addMultiple
    rw [List.flatMap_cons, List.toFinset_append, Finset.union_assoc]

/-- The whole fold collapses to a stop-level pipeline: map the query over
the flattened chunks, drop the failures, extract and collect. -/
theorem runChunks_eq {σ π : Type} [DecidableEq π] (q : Nat → Except Unit σ)
    (extract : σ → List π) (cs : List (List Nat)) :
    runChunks q extract cs
      = (((cs.flatten.map q).filterMap okToOption).flatMap extract).toFinset := by
  unfold runChunks
  rw [foldl_addMultiple, Finset.empty_union]
  congr 1
  induction cs with
  | nil => rfl
  | cons c t ih =>
    simp only [chunkResults] at ih ⊢
    simp only [List.flatMap_cons, List.flatten_cons, List.map_append,
      List.filterMap_append, List.flatMap_append, ih]

/-- Claim C8: the final `transfer_patterns` content is independent of the order
in which stops are processed and of the chunking: any two chunkings whose
concatenations are permutations of one another (in particular any
reordering of the stops or any other `CHUNK_SIZE`) aggregate to the same
set, and `add_multiple` is idempotent — inserting the same batch twice
leaves the aggregator unchanged. -/
theorem tp_order_independent {σ π : Type} [DecidableEq π] (q : Nat → Except Unit σ)
    (extract : σ → List π) (c1 c2 : List (List Nat))
    (h : List.Perm c1.flatten c2.flatten) :
    runChunks q extract c1 = runChunks q extract c2
      ∧ ∀ (agg : Finset π) (batch : List σ),
          addMultiple extract (addMultiple extract agg batch) batch
            = addMultiple extract agg batch := by
  constructor
  · rw [runChunks_eq, runChunks_eq]
    exact List.toFinset_eq_of_perm _ _
      (List.Perm.flatMap_right extract ((h.map q).filterMap okToOption))
  · intro agg batch
    unfold addMultiple
    rw [Finset.union_assoc, Finset.union_self]

/-- Witness for `tp_order_independent`: the chunkings `[[1], [0]]` (size 1)
and `[[0, 1]]` (size 2) of the permuted stop lists `[1, 0]` and `[0, 1]`. -/
theorem tp_order_independent_witness :
    List.Perm ([[1], [0]] : List (List Nat)).flatten ([[0, 1]] : List (List Nat)).flatten
      ∧ (runChunks (fun s => Except.ok s) (fun v => [v]) [[1], [0]]
            = runChunks (fun s => Except.ok s) (fun v => [v]) [[0, 1]]
          ∧ ∀ (agg : Finset Nat) (batch : List Nat),
              addMultiple (fun v => [v]) (addMultiple (fun v => [v]) agg batch) batch
                = addMultiple (fun v => [v]) agg batch) :=
  ⟨List.Perm.swap 0 1 [],
    tp_order_independent (fun s => Except.ok s) (fun v => [v]) [[1], [0]] [[0, 1]]
      (List.Perm.swap 0 1 [])⟩

/-- Claim C7: a failing range query for stop `x` is non-fatal — the failure is
consumed by the `filter_map` before any aggregation, so the run is the
same as one with `x` absent from the stop list, and `x` contributes no
patterns.  (The aggregation itself is total here: query errors never
reach the aggregator or the caller, matching the code where only the
later mutex/`Arc` unwraps — not query errors — can abort.) -/
theorem tp_query_failure_nonfatal {σ π : Type} [DecidableEq π]
    (q : Nat → Except Unit σ) (extract : σ → List π) (stops : List Nat) (x : Nat)
    (hq : q x = Except.error ()) :
    tpRun q extract stops = tpRun q extract (stops.filter (fun s => s ≠ x))
      ∧ stopContrib q extract x = ∅ := by
  constructor
  · unfold tpRun
    rw [runChunks_eq, runChunks_eq, chunks5_flatten, chunks5_flatten]
    congr 2
    induction stops with
    | nil => rfl
    | cons a t ih =>
      by_cases ha : a = x
      · subst ha
        rw [List.filter_cons_of_neg (by simp)]
        simp only [List.map_cons, List.filterMap_cons, hq]
        simpa [okToOption] using ih
      · rw [List.filter_cons_of_pos (by simp [ha])]
        simp only [List.map_cons, List.filterMap_cons]
        rw [ih]
  · unfold stopContrib
    rw [hq]
    rfl

/-- Witness for `tp_query_failure_nonfatal`: six stops, stop 3's query
fails, all others succeed. -/
theorem tp_query_failure_nonfatal_witness :
    (fun s => if s = 3 then Except.error () else Except.ok s : Nat → Except Unit Nat) 3
        = Except.error ()
      ∧ (tpRun (fun s => if s = 3 then Except.error () else Except.ok s)
            (fun v => [v]) [0, 1, 2, 3, 4, 5]
          = tpRun (fun s => if s = 3 then Except.error () else Except.ok s)
              (fun v => [v]) ([0, 1, 2, 3, 4, 5].filter (fun s => s ≠ 3))
          ∧ stopContrib (fun s => if s = 3 then Except.error () else Except.ok s)
              (fun v => [v]) 3 = ∅) :=
  ⟨rfl,
    tp_query_failure_nonfatal (fun s => if s = 3 then Except.error () else Except.ok s)
      (fun v => [v]) [0, 1, 2, 3, 4, 5] 3 rfl⟩

end Drino
